import Mathlib

/-!
Shallow embedding of the ATS-Verify core services:
the IMEI reconciliation engine (internal/service/imei_service.go, current
revision with the direct text-containment match rule and the text report),
the risk-analysis service (internal/service/risk_analysis_service.go) and
the risk-profile repository (internal/repository, `RiskRepository.Upsert`).

Strings are modelled as lists of characters; CSV input as the list of
records `encoding/csv` yields, a `none` standing for a record whose read
returned a (non-EOF) error and is skipped by the services.
-/

namespace ATSVerify

/-- A Go string, modelled as its character list. -/
abbrev Str := List Char

/-- Go `strings.TrimSpace`: drop whitespace from both ends. -/
def trimSpace (s : Str) : Str :=
  ((s.dropWhile Char.isWhitespace).reverse.dropWhile Char.isWhitespace).reverse

/-- Go `strings.ToLower`, character-wise. -/
def lowerStr (s : Str) : Str := s.map Char.toLower

/-- Go `strings.Contains s sub`: `sub` occurs as a contiguous substring of `s`. -/
def containsStr (s sub : Str) : Bool :=
  (List.range (s.length + 1)).any (fun i => sub.isPrefixOf (s.drop i))

/-! ## IMEI reconciliation engine (imei_service.go) -/

/-- `imeiColumns`: the recognized CSV column names scanned for IMEI values. -/
def imeiColumns : List Str :=
  ["imei".data, "imei1".data, "imei2".data, "imei3".data, "imei4".data,
   "imei_number".data]

/-- A word character of RE2's `\b` boundary: `[0-9A-Za-z_]`. -/
def wordChar (c : Char) : Bool := c.isAlphanum || c = '_'

/-- The character at position `i` is absent (edge) or not a word character. -/
def nonWordAt (t : Str) (i : Nat) : Bool :=
  match t.get? i with
  | none => true
  | some c => !wordChar c

/-- The regexp `\b\d{15}\b` matches `t` at position `i`: fifteen digits
starting at `i`, bounded on both sides by a string edge or a non-word
character. -/
def match15At (t : Str) (i : Nat) : Bool :=
  ((t.drop i).take 15).length == 15 && ((t.drop i).take 15).all Char.isDigit
    && (i == 0 || nonWordAt t (i - 1)) && nonWordAt t (i + 15)

/-- `regex15Digits.FindAllString`: every 15-digit word-bounded sequence of
the text, in order of position.  (Two matches can never overlap — the
character after a match is not a digit — so the position list is exactly
RE2's leftmost non-overlapping scan.) -/
def find15 (t : Str) : List Str :=
  ((List.range t.length).filter (match15At t)).map (fun i => (t.drop i).take 15)

/-- `models.IMEIMatchResult`. -/
structure IMEIMatchResult where
  csvLine : Nat
  column : Str
  imei14 : Str
  matchedIMEI : Str
  found : Bool
deriving DecidableEq, Repr

/-- `models.IMEIColumnStats`. -/
structure IMEIColumnStats where
  column : Str
  total : Nat
  found : Nat
  missing : Nat
deriving DecidableEq, Repr, Inhabited

/-- `models.IMEIVerificationReport` (the structured part; the rendered text
report is a pure function of these fields and not modelled). -/
structure IMEIVerificationReport where
  totalIMEIs : Nat
  totalFound : Nat
  totalMissing : Nat
  columnStats : List IMEIColumnStats
  results : List IMEIMatchResult
deriving DecidableEq, Repr

/-- The batch-fatal errors of `IMEIService.Analyze`. -/
inductive IMEIError where
  | headerRead
  | noIMEIColumns
deriving DecidableEq, Repr

/-- The fixed display value used when the 14-digit value was found in the
text but no extracted 15-digit candidate starts with it. -/
def placeholderMatch : Str := "(prefix matched in text)".data

/-- The recognized IMEI columns of the header: `(index, trimmed name)` in
index order (the `colMap` of `Analyze`). -/
def imeiColMap (header : List Str) : List (Nat × Str) :=
  (List.range header.length).filterMap (fun i =>
    let col := header.getD i []
    if imeiColumns.contains (lowerStr (trimSpace col)) then
      some (i, trimSpace col)
    else none)

/-- The body of `Analyze`'s inner loop for one cell of one recognized IMEI
column: trim, skip empty, truncate to 14 characters when longer, skip when
shorter, then match against the text (`strings.Contains`) and pick the first
15-digit candidate having the value as prefix for display. -/
def processCell (cands : List Str) (text : Str) (line : Nat) (colName : Str)
    (cell : Str) : Option IMEIMatchResult :=
  let imei := trimSpace cell
  if imei.isEmpty then none
  else
    let imei14 := if 14 < imei.length then imei.take 14 else imei
    if imei14.length < 14 then none
    else
      let fnd := containsStr text imei14
      let matched :=
        if fnd then
          match cands.find? (fun seq => imei14.isPrefixOf seq) with
          | some seq => seq
          | none => placeholderMatch
        else []
      some ⟨line, colName, imei14, matched, fnd⟩

/-- The results one record contributes: its cells at the recognized column
indices, indices beyond the record's length skipped. -/
def rowResults (cands : List Str) (text : Str) (colMap : List (Nat × Str))
    (line : Nat) (record : List Str) : List IMEIMatchResult :=
  colMap.filterMap (fun p =>
    if p.1 < record.length then processCell cands text line p.2 (record.getD p.1 [])
    else none)

/-- The results of the whole data-row loop.  `line` is the running `csvLine`
counter: it is incremented for each successfully read record (a `none`
record — a read error — is skipped without incrementing, as in the source). -/
def allResults (cands : List Str) (text : Str) (colMap : List (Nat × Str)) :
    List (Option (List Str)) → Nat → List IMEIMatchResult
  | [], _ => []
  | none :: rest, line => allResults cands text colMap rest line
  | some record :: rest, line =>
      rowResults cands text colMap (line + 1) record
        ++ allResults cands text colMap rest (line + 1)

/-- Go's `uniqueStrings` helper (risk_analysis_service.go), also the key
set of a Go map in insertion order: first occurrence kept, duplicates
dropped by exact equality. -/
def uniqueAux : List Str → List Str → List Str
  | _, [] => []
  | seen, s :: rest =>
      if s ∈ seen then uniqueAux seen rest else s :: uniqueAux (s :: seen) rest

/-- `uniqueStrings`: distinct members in order of first appearance. -/
def uniqueStrings (l : List Str) : List Str := uniqueAux [] l

/-- The `statsMap` of `Analyze` right after initialization: one zeroed
entry per distinct recognized column name. -/
def initStats (names : List Str) : List (Str × IMEIColumnStats) :=
  (uniqueStrings names).map (fun n => (n, ⟨n, 0, 0, 0⟩))

/-- One iteration's effect on `statsMap`: `Total++` and `Found++`/`Missing++`
on the (unique) entry keyed by the result's column name. -/
def updStats : List (Str × IMEIColumnStats) → Str → Bool →
    List (Str × IMEIColumnStats)
  | [], _, _ => []
  | e :: es, name, fnd =>
      if e.1 = name then
        (e.1, { e.2 with
                  total := e.2.total + 1,
                  found := e.2.found + (if fnd then 1 else 0),
                  missing := e.2.missing + (if fnd then 0 else 1) }) :: es
      else e :: updStats es name fnd

/-- The `statsMap` after the data-row loop: the per-result increments folded
over the initialized map. -/
def foldStats (names : List Str) (results : List IMEIMatchResult) :
    List (Str × IMEIColumnStats) :=
  results.foldl (fun a r => updStats a r.column r.found) (initStats names)

/-- The report built by `Analyze`'s data-row loop and final collection.
The counters are the loop's counters: each emitted result increments
`TotalIMEIs` and exactly one of `TotalFound`/`TotalMissing`, plus the
`statsMap` entry of its column; the final `ColumnStats` collection reads
`statsMap` once per `colMap` entry. -/
def mkReport (colMap : List (Nat × Str)) (text : Str)
    (rest : List (Option (List Str))) : IMEIVerificationReport :=
  let cands := find15 text
  let results := allResults cands text colMap rest 1
  let stats := foldStats (colMap.map Prod.snd) results
  { totalIMEIs := results.length
    totalFound := (results.filter (fun r => r.found)).length
    totalMissing := (results.filter (fun r => !r.found)).length
    columnStats := colMap.map (fun p =>
      ((stats.find? (fun e => e.1 = p.2)).map Prod.snd).getD ⟨p.2, 0, 0, 0⟩)
    results := results }

/-- `IMEIService.Analyze`: header errors and the recognized-column check,
then the data-row loop of `mkReport`. -/
def Analyze (records : List (Option (List Str))) (text : Str) :
    Except IMEIError IMEIVerificationReport :=
  match records with
  | [] => .error .headerRead
  | none :: _ => .error .headerRead
  | some header :: rest =>
    if (imeiColMap header).isEmpty then .error .noIMEIColumns
    else .ok (mkReport (imeiColMap header) text rest)

/-! ## Risk-analysis service (risk_analysis_service.go) -/

/-- `RiskCSVRow`.  `AnalyzeCSV` fills only `appID`, `iinBin`, `docNum` and
`status`; the remaining fields keep their zero value. -/
structure RiskCSVRow where
  date : Str
  appID : Str
  iinBin : Str
  docNum : Str
  user : Str
  org : Str
  status : Str
  reject : Str
  reason : Str
deriving DecidableEq, Repr

/-- `DocumentReuseFlag`. -/
structure DocumentReuseFlag where
  docNumber : Str
  iins : List Str
  count : Nat
deriving DecidableEq, Repr

/-- `FrequencyFlag` (its `riskLevel` is the literal string the service
writes, `"yellow"` or `"red"`). -/
structure FrequencyFlag where
  iinBin : Str
  count : Nat
  riskLevel : Str
deriving DecidableEq, Repr

/-- `FlipFlopFlag`. -/
structure FlipFlopFlag where
  iinBin : Str
  statuses : List Str
  appIDs : List Str
deriving DecidableEq, Repr

/-- `RiskAnalysisResult`. -/
structure RiskAnalysisResult where
  totalRows : Nat
  uniqueIINs : Nat
  documentReuse : List DocumentReuseFlag
  highFrequencyIIN : List FrequencyFlag
  flipFlopStatus : List FlipFlopFlag
  autoFlagged : Nat
deriving DecidableEq, Repr

/-- `models.RiskLevel`. -/
inductive RiskLevel where
  | green
  | yellow
  | red
deriving DecidableEq, Repr, Inhabited

/-- The argument of `RiskRepository.Upsert`: the fields of `models.RiskProfile`
the service fills before upserting (the actor reference is kept opaque). -/
structure RiskProfile where
  iinBin : Str
  riskLevel : RiskLevel
  flaggedBy : Str
  reason : Str
deriving DecidableEq, Repr

/-- The batch-fatal errors of `AnalyzeCSV`. -/
inductive RiskError where
  | headerRead
  | missingColumn (name : Str) (tried : List Str)
  | noValidRows
deriving DecidableEq, Repr

/-- `requiredCols`. -/
def requiredCols : List Str := ["iin".data, "doc".data, "status".data]

/-- `altNames`: the alias list tried for each required logical column. -/
def altNames (name : Str) : List Str :=
  if name = "iin".data then
    ["iin/bin".data, "iin_bin".data, "iin".data, "bin".data]
  else if name = "doc".data then
    ["doc".data, "document".data, "doc_number".data, "document_number".data]
  else if name = "status".data then ["status".data]
  else []

/-- The `colMap` lookup: the index of the header column whose lowercased,
trimmed name equals `name`.  Building the Go map overwrites earlier entries
with later ones, so the last matching index wins. -/
def colMapLookup (header : List Str) (name : Str) : Option Nat :=
  ((List.range header.length).filter
    (fun i => lowerStr (trimSpace (header.getD i [])) = name)).getLast?

/-- One required column's resolution: the first alias present in the header. -/
def resolveCol (header : List Str) (alts : List Str) : Option Nat :=
  alts.findSome? (colMapLookup header)

/-- The required-column resolution loop: resolves each required column in
order and fails on the first one with no matching alias, naming the aliases
tried. -/
def resolveLoop (header : List Str) : List Str → Except RiskError (List (Str × Nat))
  | [] => .ok []
  | req :: rest =>
    match resolveCol header (altNames req) with
    | some idx =>
        match resolveLoop header rest with
        | .ok l => .ok ((req, idx) :: l)
        | .error e => .error e
    | none => .error (.missingColumn req (altNames req))

/-- The optional `AppId` column: `appid`, else `app_id`, else absent. -/
def appCol (header : List Str) : Option Nat :=
  match colMapLookup header "appid".data with
  | some i => some i
  | none => colMapLookup header "app_id".data

/-- `safeGet`: the trimmed field at `idx`, or empty when out of range. -/
def safeGet (record : List Str) (idx : Nat) : Str :=
  trimSpace (record.getD idx [])

/-- One parsed data row. -/
def parseRow (iinIdx docIdx statusIdx : Nat) (appIdx : Option Nat)
    (record : List Str) : RiskCSVRow :=
  { date := [], user := [], org := [], reject := [], reason := []
    appID := match appIdx with | some i => safeGet record i | none => []
    iinBin := safeGet record iinIdx
    docNum := safeGet record docIdx
    status := safeGet record statusIdx }

/-- The row-parsing loop: records with read errors are skipped, and rows
whose identifier is empty are dropped. -/
def parseRows (iinIdx docIdx statusIdx : Nat) (appIdx : Option Nat)
    (records : List (Option (List Str))) : List RiskCSVRow :=
  records.filterMap (fun orec =>
    match orec with
    | none => none
    | some record =>
      let row := parseRow iinIdx docIdx statusIdx appIdx record
      if row.iinBin.isEmpty then none else some row)

/-- The rows `AnalyzeCSV` retains for a given header and record list. -/
def riskRows (header : List Str) (rest : List (Option (List Str))) :
    List RiskCSVRow :=
  match resolveLoop header requiredCols with
  | .error _ => []
  | .ok resolved =>
    let idx := fun req => ((resolved.find? (fun e => e.1 = req)).map Prod.snd).getD 0
    parseRows (idx "iin".data) (idx "doc".data) (idx "status".data)
      (appCol header) rest

/-- The batch's raw occurrence count of one identifier (`iinFreq`). -/
def countOcc (id : Str) (rows : List RiskCSVRow) : Nat :=
  (rows.filter (fun r => decide (r.iinBin = id))).length

/-- The distinct identifiers of the batch, in order of first appearance
(the key set of `iinFreq`/`uniqueIINs`/`iinStatuses`). -/
def distinctIINs (rows : List RiskCSVRow) : List Str :=
  uniqueStrings (rows.map (fun r => r.iinBin))

/-- The distinct identifiers observed with document number `doc`, in order
of first appearance (one entry of `docToIINs`). -/
def docIINs (doc : Str) (rows : List RiskCSVRow) : List Str :=
  uniqueStrings ((rows.filter (fun r => decide (r.docNum = doc))).map (fun r => r.iinBin))

/-- Analysis 1, document reuse: one flag per distinct non-empty document
number used by more than one distinct identifier. -/
def docFlags (rows : List RiskCSVRow) : List DocumentReuseFlag :=
  (uniqueStrings ((rows.filter (fun r => !r.docNum.isEmpty)).map
      (fun r => r.docNum))).filterMap (fun doc =>
    if 1 < (docIINs doc rows).length then
      some ⟨doc, docIINs doc rows, (docIINs doc rows).length⟩
    else none)

/-- Analysis 2, high-frequency identifiers: one flag per distinct identifier
with at least 5 occurrences, `"red"` from 10 up, `"yellow"` below. -/
def freqFlags (rows : List RiskCSVRow) : List FrequencyFlag :=
  (distinctIINs rows).filterMap (fun iin =>
    if 5 ≤ countOcc iin rows then
      some ⟨iin, countOcc iin rows,
            if 10 ≤ countOcc iin rows then "red".data else "yellow".data⟩
    else none)

/-- The statuses recorded for one identifier, in row order (`iinStatuses`). -/
def statusesOf (id : Str) (rows : List RiskCSVRow) : List Str :=
  (rows.filter (fun r => decide (r.iinBin = id))).map (fun r => r.status)

/-- The non-empty application ids recorded for one identifier, in row order
with duplicates retained (`iinAppIDs`). -/
def appIDsOf (id : Str) (rows : List RiskCSVRow) : List Str :=
  (rows.filter (fun r => decide (r.iinBin = id))).filterMap
    (fun r => if r.appID.isEmpty then none else some r.appID)

/-- Analysis 3, flip-flop statuses: one flag per distinct identifier whose
distinct status list has more than one member. -/
def flipFlags (rows : List RiskCSVRow) : List FlipFlopFlag :=
  (distinctIINs rows).filterMap (fun iin =>
    if 1 < (uniqueStrings (statusesOf iin rows)).length then
      some ⟨iin, uniqueStrings (statusesOf iin rows), appIDsOf iin rows⟩
    else none)

/-- The auto-flag upserts of the frequency pass, in flag order. -/
def freqWrites (flaggedBy : Str) (flags : List FrequencyFlag) : List RiskProfile :=
  flags.map (fun hf =>
    { iinBin := hf.iinBin
      riskLevel := if hf.riskLevel = "red".data then .red else .yellow
      flaggedBy := flaggedBy
      reason := "Auto-flagged: ".data ++ (Nat.repr hf.count).data
                  ++ " applications detected".data })

/-- The auto-flag upserts of the document-reuse pass: every identifier of
every flag, tier yellow. -/
def docWrites (flaggedBy : Str) (flags : List DocumentReuseFlag) : List RiskProfile :=
  (flags.map (fun dr => dr.iins.map (fun iin =>
    ({ iinBin := iin
       riskLevel := .yellow
       flaggedBy := flaggedBy
       reason := "Auto-flagged: document ".data ++ dr.docNumber
                   ++ " reused across ".data ++ (Nat.repr dr.count).data
                   ++ " IINs".data } : RiskProfile)))).flatten

/-- `RiskAnalysisService.AnalyzeCSV`, returning the analysis result and the
sequence of risk-profile upserts it issues, in order: the frequency-pass
writes first, then the document-reuse writes.  In this model every upsert
succeeds, so `autoFlagged` counts all of them. -/
def AnalyzeCSVW (records : List (Option (List Str))) (flaggedBy : Str) :
    Except RiskError (RiskAnalysisResult × List RiskProfile) :=
  match records with
  | [] => .error .headerRead
  | none :: _ => .error .headerRead
  | some header :: rest =>
    match resolveLoop header requiredCols with
    | .error e => .error e
    | .ok _ =>
      let rows := riskRows header rest
      if rows.isEmpty then .error .noValidRows
      else
        let dflags := docFlags rows
        let fflags := freqFlags rows
        let writes := freqWrites flaggedBy fflags ++ docWrites flaggedBy dflags
        .ok
          ({ totalRows := rows.length
             uniqueIINs := (distinctIINs rows).length
             documentReuse := dflags
             highFrequencyIIN := fflags
             flipFlopStatus := flipFlags rows
             autoFlagged := writes.length }, writes)

/-! ## Risk-profile store (RiskRepository, part of the repository layer) -/

/-- One row of the `iin_bin_risks` table.  `id` and the timestamps are kept
as opaque numbers. -/
structure RiskRow where
  id : Nat
  iinBin : Str
  riskLevel : RiskLevel
  flaggedBy : Str
  comment : Str
  createdAt : Nat
  updatedAt : Nat
deriving DecidableEq, Repr, Inhabited

/-- `RiskRepository.Upsert`: `INSERT ... ON CONFLICT (iin_bin) DO UPDATE SET
risk_level, flagged_by, comment, updated_at = NOW()`.  When a row with the
identifier exists it is updated in place (its `id`, key and `created_at`
untouched); otherwise a fresh row is inserted. -/
def upsert (table : List RiskRow) (p : RiskProfile) (newId now : Nat) :
    List RiskRow :=
  if table.any (fun row => decide (row.iinBin = p.iinBin)) then
    table.map (fun row =>
      if row.iinBin = p.iinBin then
        { row with riskLevel := p.riskLevel, flaggedBy := p.flaggedBy,
                   comment := p.reason, updatedAt := now }
      else row)
  else
    table ++ [⟨newId, p.iinBin, p.riskLevel, p.flaggedBy, p.reason, now, now⟩]

/-- The upserts of one batch applied in order (fresh ids and timestamps
supplied by a counter). -/
def applyWrites (table : List RiskRow) : List RiskProfile → Nat → List RiskRow
  | [], _ => table
  | w :: rest, n => applyWrites (upsert table w n n) rest (n + 1)

/-- The stored profile of one identifier (`GetByIINBIN`). -/
def lookupRow (table : List RiskRow) (id : Str) : Option RiskRow :=
  table.find? (fun row => decide (row.iinBin = id))

/-! ## Lemmas about `uniqueStrings` -/

theorem mem_uniqueAux (x : Str) (l : List Str) :
    ∀ seen : List Str, (x ∈ uniqueAux seen l ↔ x ∈ l ∧ x ∉ seen) := by
  induction l with
  | nil => intro seen; simp [uniqueAux]
  | cons s rest ih =>
    intro seen
    by_cases hs : s ∈ seen
    · rw [uniqueAux, if_pos hs, ih seen]
      simp only [List.mem_cons]
      constructor
      · rintro ⟨h1, h2⟩
        exact ⟨Or.inr h1, h2⟩
      · rintro ⟨h1 | h1, h2⟩
        · exact absurd (h1 ▸ hs) h2
        · exact ⟨h1, h2⟩
    · rw [uniqueAux, if_neg hs]
      simp only [List.mem_cons, ih (s :: seen)]
      constructor
      · rintro (h | ⟨h1, h2⟩)
        · exact ⟨Or.inl h, h ▸ hs⟩
        · exact ⟨Or.inr h1, fun hx => h2 (Or.inr hx)⟩
      · rintro ⟨h1, h2⟩
        by_cases hxs : x = s
        · exact Or.inl hxs
        · rcases h1 with h | h
          · exact absurd h hxs
          · exact Or.inr ⟨h, fun hx => hx.elim hxs h2⟩

theorem mem_uniqueStrings (x : Str) (l : List Str) :
    x ∈ uniqueStrings l ↔ x ∈ l := by
  rw [uniqueStrings, mem_uniqueAux]
  simp

theorem nodup_uniqueAux (l : List Str) : ∀ seen, (uniqueAux seen l).Nodup := by
  induction l with
  | nil => intro seen; simp [uniqueAux]
  | cons s rest ih =>
    intro seen
    by_cases hs : s ∈ seen
    · rw [uniqueAux, if_pos hs]; exact ih seen
    · rw [uniqueAux, if_neg hs]
      refine List.nodup_cons.mpr ⟨?_, ih (s :: seen)⟩
      intro hmem
      exact ((mem_uniqueAux s rest (s :: seen)).mp hmem).2 (List.mem_cons_self s seen)

theorem nodup_uniqueStrings (l : List Str) : (uniqueStrings l).Nodup :=
  nodup_uniqueAux l []

theorem uniqueAux_eq_self (l : List Str) :
    ∀ seen, l.Nodup → (∀ x ∈ l, x ∉ seen) → uniqueAux seen l = l := by
  induction l with
  | nil => intro seen _ _; simp [uniqueAux]
  | cons s rest ih =>
    intro seen hnd hdisj
    rw [uniqueAux, if_neg (hdisj s (List.mem_cons_self _ _))]
    congr 1
    refine ih (s :: seen) (List.nodup_cons.mp hnd).2 (fun x hx hmem => ?_)
    rcases List.mem_cons.mp hmem with h | h
    · exact (List.nodup_cons.mp hnd).1 (h ▸ hx)
    · exact hdisj x (List.mem_cons_of_mem _ hx) h

theorem uniqueStrings_eq_self (l : List Str) (h : l.Nodup) : uniqueStrings l = l :=
  uniqueAux_eq_self l [] h (by simp)

/-- Filtering a keyed `filterMap` over a duplicate-free key list by one key:
the singleton the key produces, or nothing. -/
theorem filter_filterMap_key {β : Type} (key : β → Str) [DecidableEq β]
    (f : Str → Option β) (id : Str) :
    ∀ l : List Str, l.Nodup → (∀ x fl, f x = some fl → key fl = x) →
      (l.filterMap f).filter (fun fl => decide (key fl = id)) =
        if id ∈ l then (f id).toList else [] := by
  intro l
  induction l with
  | nil => intro _ _; simp
  | cons a l ih =>
    intro hnd hkey
    obtain ⟨ha, hndl⟩ := List.nodup_cons.mp hnd
    cases hfa : f a with
    | none =>
      rw [List.filterMap_cons_none hfa, ih hndl hkey]
      by_cases hid : id = a
      · subst hid
        simp [ha, hfa]
      · simp [List.mem_cons, hid]
    | some fl =>
      have hk : key fl = a := hkey a fl hfa
      rw [List.filterMap_cons_some hfa]
      by_cases hid : id = a
      · subst hid
        rw [List.filter_cons_of_pos (by simp [hk]), ih hndl hkey, if_neg ha,
          if_pos (List.mem_cons_self _ _), hfa]
        rfl
      · rw [List.filter_cons_of_neg
            (by simp only [hk, decide_eq_true_eq]; exact fun h => hid h.symm),
          ih hndl hkey]
        simp [List.mem_cons, hid]

/-- A positive raw count puts the identifier among the batch's distinct
identifiers. -/
theorem mem_distinct_of_countOcc_pos (rows : List RiskCSVRow) (id : Str)
    (h : 0 < countOcc id rows) : id ∈ distinctIINs rows := by
  obtain ⟨r, hr⟩ := List.exists_mem_of_ne_nil _ (List.length_pos.mp h)
  obtain ⟨hrmem, hrid⟩ := List.mem_filter.mp hr
  rw [distinctIINs, mem_uniqueStrings]
  exact List.mem_map.mpr ⟨r, hrmem, of_decide_eq_true hrid⟩

/-- C3: with `c` the identifier's raw occurrence count in the batch, the
frequency flag list of `AnalyzeCSV` contains no flag for it when `c ≤ 4`,
exactly one yellow flag when `5 ≤ c ≤ 9`, and exactly one red (and no
yellow) flag when `10 ≤ c`. -/
theorem freq_thresholds (rows : List RiskCSVRow) (id : Str) :
    (countOcc id rows ≤ 4 →
        (freqFlags rows).filter (fun f => decide (f.iinBin = id)) = []) ∧
    (5 ≤ countOcc id rows → countOcc id rows ≤ 9 →
        (freqFlags rows).filter (fun f => decide (f.iinBin = id)) =
          [⟨id, countOcc id rows, "yellow".data⟩]) ∧
    (10 ≤ countOcc id rows →
        (freqFlags rows).filter (fun f => decide (f.iinBin = id)) =
          [⟨id, countOcc id rows, "red".data⟩]) := by
  have hbase := filter_filterMap_key (β := FrequencyFlag)
    (fun fl => fl.iinBin)
    (fun iin =>
      if 5 ≤ countOcc iin rows then
        some ⟨iin, countOcc iin rows,
              if 10 ≤ countOcc iin rows then "red".data else "yellow".data⟩
      else none)
    id (distinctIINs rows) (nodup_uniqueAux _ [])
    (by
      intro x fl hx
      simp only [] at hx
      split at hx
      · cases hx
        rfl
      · cases hx)
  simp only [freqFlags]
  rw [hbase]
  refine ⟨?_, ?_, ?_⟩
  · intro hc
    have h5 : ¬ 5 ≤ countOcc id rows := by omega
    simp only [h5, if_false]
    split <;> rfl
  · intro h5 h9
    have hmem : id ∈ distinctIINs rows := mem_distinct_of_countOcc_pos rows id (by omega)
    rw [if_pos hmem]
    simp only [if_pos h5, if_neg (by omega : ¬ 10 ≤ countOcc id rows)]
    rfl
  · intro h10
    have hmem : id ∈ distinctIINs rows := mem_distinct_of_countOcc_pos rows id (by omega)
    rw [if_pos hmem]
    simp only [if_pos (by omega : 5 ≤ countOcc id rows), if_pos h10]
    rfl

/-- A member of the grouped document-number list is non-empty. -/
theorem docs_ne_nil (rows : List RiskCSVRow) (d : Str)
    (h : d ∈ uniqueStrings ((rows.filter (fun r => !r.docNum.isEmpty)).map
      (fun r => r.docNum))) : d ≠ [] := by
  rw [mem_uniqueStrings] at h
  obtain ⟨r, hr, heq⟩ := List.mem_map.mp h
  obtain ⟨_, hne⟩ := List.mem_filter.mp hr
  intro hd
  rw [heq, hd] at hne
  exact absurd hne (by simp)

/-- A document number observed with at least one identifier is among the
grouped document numbers (given it is non-empty). -/
theorem mem_docs_of_docIINs (rows : List RiskCSVRow) (d : Str) (hd : d ≠ [])
    (h : 0 < (docIINs d rows).length) :
    d ∈ uniqueStrings ((rows.filter (fun r => !r.docNum.isEmpty)).map
      (fun r => r.docNum)) := by
  obtain ⟨x, hx⟩ := List.exists_mem_of_ne_nil _ (List.length_pos.mp h)
  rw [docIINs, mem_uniqueStrings] at hx
  obtain ⟨r, hr, _⟩ := List.mem_map.mp hx
  obtain ⟨hrmem, hrd⟩ := List.mem_filter.mp hr
  have hrd' : r.docNum = d := of_decide_eq_true hrd
  rw [mem_uniqueStrings]
  refine List.mem_map.mpr ⟨r, List.mem_filter.mpr ⟨hrmem, ?_⟩, hrd'⟩
  rw [hrd']
  cases d with
  | nil => exact absurd rfl hd
  | cons a l => rfl

/-- C4: the document-reuse flag list of `AnalyzeCSV` contains exactly one
flag for a document number precisely when the number is non-empty and the
distinct identifiers observed with it exceed one; the flag carries that
distinct-identifier list and its size as the count.  Otherwise (empty
number, or at most one distinct identifier however many rows) no flag. -/
theorem docreuse_iff (rows : List RiskCSVRow) (d : Str) :
    (d ≠ [] → 1 < (docIINs d rows).length →
        (docFlags rows).filter (fun fl => decide (fl.docNumber = d)) =
          [⟨d, docIINs d rows, (docIINs d rows).length⟩]) ∧
    ((d = [] ∨ (docIINs d rows).length ≤ 1) →
        (docFlags rows).filter (fun fl => decide (fl.docNumber = d)) = []) := by
  have hbase := filter_filterMap_key (β := DocumentReuseFlag)
    (fun fl => fl.docNumber)
    (fun doc =>
      if 1 < (docIINs doc rows).length then
        some ⟨doc, docIINs doc rows, (docIINs doc rows).length⟩
      else none)
    d (uniqueStrings ((rows.filter (fun r => !r.docNum.isEmpty)).map
      (fun r => r.docNum)))
    (nodup_uniqueAux _ [])
    (by
      intro x fl hx
      simp only [] at hx
      split at hx
      · cases hx
        rfl
      · cases hx)
  simp only [docFlags]
  rw [hbase]
  constructor
  · intro hd hlen
    rw [if_pos (mem_docs_of_docIINs rows d hd (by omega))]
    simp [hlen]
  · rintro (hd | hlen)
    · subst hd
      rw [if_neg (fun hmem => docs_ne_nil rows [] hmem rfl)]
    · split
      · simp [show ¬ 1 < (docIINs d rows).length from by omega]
      · rfl

/-- An identifier with more than one distinct status occurs in the batch. -/
theorem countOcc_pos_of_statuses (rows : List RiskCSVRow) (id : Str)
    (h : 0 < (uniqueStrings (statusesOf id rows)).length) :
    0 < countOcc id rows := by
  obtain ⟨x, hx⟩ := List.exists_mem_of_ne_nil _ (List.length_pos.mp h)
  rw [mem_uniqueStrings, statusesOf] at hx
  obtain ⟨r, hr, _⟩ := List.mem_map.mp hx
  exact List.length_pos.mpr (List.ne_nil_of_mem hr)

/-- C5: the flip-flop flag list of `AnalyzeCSV` contains exactly one flag
for an identifier precisely when its distinct status list (first-appearance
order, exact case-sensitive equality) has more than one member; the flag
carries that distinct status list and the identifier's non-empty
application ids in encounter order, duplicates retained. -/
theorem flipflop_iff (rows : List RiskCSVRow) (id : Str) :
    (1 < (uniqueStrings (statusesOf id rows)).length →
        (flipFlags rows).filter (fun fl => decide (fl.iinBin = id)) =
          [⟨id, uniqueStrings (statusesOf id rows), appIDsOf id rows⟩]) ∧
    ((uniqueStrings (statusesOf id rows)).length ≤ 1 →
        (flipFlags rows).filter (fun fl => decide (fl.iinBin = id)) = []) := by
  have hbase := filter_filterMap_key (β := FlipFlopFlag)
    (fun fl => fl.iinBin)
    (fun iin =>
      if 1 < (uniqueStrings (statusesOf iin rows)).length then
        some ⟨iin, uniqueStrings (statusesOf iin rows), appIDsOf iin rows⟩
      else none)
    id (distinctIINs rows) (nodup_uniqueAux _ [])
    (by
      intro x fl hx
      simp only [] at hx
      split at hx
      · cases hx
        rfl
      · cases hx)
  simp only [flipFlags]
  rw [hbase]
  constructor
  · intro hlen
    have hmem : id ∈ distinctIINs rows :=
      mem_distinct_of_countOcc_pos rows id
        (countOcc_pos_of_statuses rows id (by omega))
    rw [if_pos hmem]
    simp [hlen]
  · intro hlen
    split
    · simp [show ¬ 1 < (uniqueStrings (statusesOf id rows)).length from by omega]
    · rfl

/-! ## Lemmas about the IMEI engine -/

/-- Inversion of one successful cell: every field of the emitted result in
terms of the cell's trimmed value. -/
theorem processCell_inv (cands : List Str) (text : Str) (line : Nat)
    (name cell : Str) (r : IMEIMatchResult)
    (h : processCell cands text line name cell = some r) :
    r.csvLine = line ∧ r.column = name ∧
    r.imei14 = (if 14 < (trimSpace cell).length then (trimSpace cell).take 14
                else trimSpace cell) ∧
    r.imei14.length = 14 ∧
    r.found = containsStr text r.imei14 ∧
    r.matchedIMEI =
      (if r.found then
        match cands.find? (fun seq => r.imei14.isPrefixOf seq) with
        | some seq => seq
        | none => placeholderMatch
      else []) := by
  simp only [processCell] at h
  by_cases he : (trimSpace cell).isEmpty
  · rw [if_pos he] at h
    cases h
  · rw [if_neg he] at h
    by_cases h14 : 14 < (trimSpace cell).length
    · rw [if_pos h14,
        if_neg (show ¬ ((trimSpace cell).take 14).length < 14 by
          simp only [List.length_take]; omega)] at h
      cases h
      refine ⟨rfl, rfl, (if_pos h14).symm, ?_, rfl, rfl⟩
      simp only [List.length_take]
      omega
    · rw [if_neg h14] at h
      by_cases hlt : (trimSpace cell).length < 14
      · rw [if_pos hlt] at h
        cases h
      · rw [if_neg hlt] at h
        cases h
        exact ⟨rfl, rfl, (if_neg h14).symm,
          show (trimSpace cell).length = 14 by omega, rfl, rfl⟩

/-- Every emitted result comes from one successful cell of one recognized
column. -/
theorem mem_allResults (cands : List Str) (text : Str)
    (colMap : List (Nat × Str)) (r : IMEIMatchResult) :
    ∀ (records : List (Option (List Str))) (line : Nat),
      r ∈ allResults cands text colMap records line →
      ∃ p ∈ colMap, ∃ l cell, processCell cands text l p.2 cell = some r := by
  intro records
  induction records with
  | nil =>
    intro line h
    simp only [allResults] at h
    cases h
  | cons orec rest ih =>
    intro line h
    cases orec with
    | none =>
      simp only [allResults] at h
      exact ih line h
    | some record =>
      simp only [allResults] at h
      rcases List.mem_append.mp h with h1 | h2
      · obtain ⟨p, hp, hcell⟩ := List.mem_filterMap.mp h1
        split at hcell
        · exact ⟨p, hp, _, _, hcell⟩
        · cases hcell
      · exact ih _ h2

/-- Inversion of a successful `Analyze` call. -/
theorem Analyze_ok_inv (records : List (Option (List Str))) (text : Str)
    (report : IMEIVerificationReport) (h : Analyze records text = .ok report) :
    ∃ header rest, records = some header :: rest ∧
      (imeiColMap header).isEmpty = false ∧
      report = mkReport (imeiColMap header) text rest := by
  cases records with
  | nil => cases h
  | cons orec rest =>
    cases orec with
    | none => cases h
    | some header =>
      simp only [Analyze] at h
      split at h
      · cases h
      next hne =>
        cases h
        exact ⟨header, rest, rfl, by simpa using hne, rfl⟩

theorem mkReport_results (colMap : List (Nat × Str)) (text : Str)
    (rest : List (Option (List Str))) :
    (mkReport colMap text rest).results = allResults (find15 text) text colMap rest 1 := rfl

/-- C1: in every result a successful `Analyze` emits, `found` is true
exactly when the normalized 14-character value occurs as a literal
substring of the full text blob — independently of the extracted 15-digit
candidate list. -/
theorem found_iff_contains (records : List (Option (List Str))) (text : Str)
    (report : IMEIVerificationReport) (r : IMEIMatchResult)
    (h : Analyze records text = .ok report) (hr : r ∈ report.results) :
    r.found = containsStr text r.imei14 := by
  obtain ⟨header, rest, hrec, hne, hrep⟩ := Analyze_ok_inv records text report h
  subst hrep
  rw [mkReport_results] at hr
  obtain ⟨p, hp, l, cell, hcell⟩ := mem_allResults _ _ _ r rest 1 hr
  exact (processCell_inv _ _ _ _ _ _ hcell).2.2.2.2.1

/-- C6: a cell whose trimmed value is longer than 14 characters is
normalized to exactly its first 14 characters; one whose trimmed value is
shorter than 14 characters (including the empty one) produces no result at
all, and consequently every result a successful `Analyze` emits carries a
14-character normalized value. -/
theorem normalize_rules (cands : List Str) (text : Str) (line : Nat)
    (name cell : Str) (records : List (Option (List Str)))
    (report : IMEIVerificationReport) :
    ((trimSpace cell).length < 14 → processCell cands text line name cell = none) ∧
    (14 < (trimSpace cell).length →
        ∃ r, processCell cands text line name cell = some r ∧
          r.imei14 = (trimSpace cell).take 14) ∧
    (Analyze records text = .ok report → ∀ r ∈ report.results,
        r.imei14.length = 14) := by
  refine ⟨?_, ?_, ?_⟩
  · intro hlen
    simp only [processCell]
    by_cases he : (trimSpace cell).isEmpty
    · rw [if_pos he]
    · rw [if_neg he, if_neg (show ¬ 14 < (trimSpace cell).length by omega),
        if_pos hlen]
  · intro hlen
    have he : ¬ (trimSpace cell).isEmpty = true := by
      intro hemp
      rw [List.isEmpty_iff] at hemp
      rw [hemp] at hlen
      simp at hlen
    simp only [processCell]
    rw [if_neg he, if_pos hlen,
      if_neg (show ¬ ((trimSpace cell).take 14).length < 14 by
        simp only [List.length_take]
        omega)]
    exact ⟨_, rfl, rfl⟩
  · intro h r hr
    obtain ⟨header, rest, hrec, hne, hrep⟩ := Analyze_ok_inv records text report h
    subst hrep
    rw [mkReport_results] at hr
    obtain ⟨p, hp, l, c, hcell⟩ := mem_allResults _ _ _ r rest 1 hr
    exact (processCell_inv _ _ _ _ _ _ hcell).2.2.2.1

/-- A candidate extracted by `find15` has exactly 15 characters. -/
theorem find15_length (t s : Str) (h : s ∈ find15 t) : s.length = 15 := by
  obtain ⟨i, hi, hs⟩ := List.mem_map.mp h
  have hm := (List.mem_filter.mp hi).2
  simp only [match15At, Bool.and_eq_true, beq_iff_eq] at hm
  rw [← hs]
  exact hm.1.1.1

/-- C7: in every result a successful `Analyze` emits, a found value's
display field is the first extracted 15-digit candidate starting with the
normalized value, or the fixed placeholder when no candidate does — never
empty; a missing value's display field is empty. -/
theorem matched_value_rules (records : List (Option (List Str))) (text : Str)
    (report : IMEIVerificationReport) (r : IMEIMatchResult)
    (h : Analyze records text = .ok report) (hr : r ∈ report.results) :
    (r.found = true →
        r.matchedIMEI =
          (match (find15 text).find? (fun seq => r.imei14.isPrefixOf seq) with
           | some seq => seq
           | none => placeholderMatch) ∧ r.matchedIMEI ≠ []) ∧
    (r.found = false → r.matchedIMEI = []) := by
  obtain ⟨header, rest, hrec, hne, hrep⟩ := Analyze_ok_inv records text report h
  subst hrep
  rw [mkReport_results] at hr
  obtain ⟨p, hp, l, cell, hcell⟩ := mem_allResults _ _ _ r rest 1 hr
  have hmatched := (processCell_inv _ _ _ _ _ _ hcell).2.2.2.2.2
  constructor
  · intro hfound
    rw [hfound, if_pos rfl] at hmatched
    refine ⟨hmatched, ?_⟩
    rw [hmatched]
    cases hf : (find15 text).find? (fun seq => r.imei14.isPrefixOf seq) with
    | none => simp [placeholderMatch]
    | some s =>
      have : s.length = 15 :=
        find15_length text s (List.mem_of_find?_eq_some hf)
      simp only []
      intro hnil
      rw [hnil] at this
      simp at this
  · intro hfound
    rwa [hfound, if_neg (by simp)] at hmatched

/-! ## Lemmas about the per-column statistics -/

/-- The sum of `total` over the tracked stats entries. -/
def sumTotal (assoc : List (Str × IMEIColumnStats)) : Nat :=
  (assoc.map (fun e => e.2.total)).sum

/-- The sum of `found` over the tracked stats entries. -/
def sumFound (assoc : List (Str × IMEIColumnStats)) : Nat :=
  (assoc.map (fun e => e.2.found)).sum

/-- The sum of `missing` over the tracked stats entries. -/
def sumMissing (assoc : List (Str × IMEIColumnStats)) : Nat :=
  (assoc.map (fun e => e.2.missing)).sum

theorem updStats_keys (assoc : List (Str × IMEIColumnStats)) (name : Str)
    (fnd : Bool) :
    (updStats assoc name fnd).map Prod.fst = assoc.map Prod.fst := by
  induction assoc with
  | nil => rfl
  | cons e es ih =>
    rw [updStats]
    split
    · simp
    · simp [ih]

theorem updStats_statOk (assoc : List (Str × IMEIColumnStats)) (name : Str)
    (fnd : Bool) (h : ∀ e ∈ assoc, e.2.found + e.2.missing = e.2.total) :
    ∀ e ∈ updStats assoc name fnd, e.2.found + e.2.missing = e.2.total := by
  induction assoc with
  | nil => intro e he; cases he
  | cons a es ih =>
    rw [updStats]
    split
    · intro e he
      rcases List.mem_cons.mp he with h1 | h1
      · subst h1
        have := h a (List.mem_cons_self _ _)
        simp only []
        cases fnd <;> simp <;> omega
      · exact h e (List.mem_cons_of_mem _ h1)
    · intro e he
      rcases List.mem_cons.mp he with h1 | h1
      · exact h1 ▸ h a (List.mem_cons_self _ _)
      · exact ih (fun x hx => h x (List.mem_cons_of_mem _ hx)) e h1

theorem updStats_sums (assoc : List (Str × IMEIColumnStats)) (name : Str)
    (fnd : Bool) (hmem : name ∈ assoc.map Prod.fst) :
    sumTotal (updStats assoc name fnd) = sumTotal assoc + 1 ∧
    sumFound (updStats assoc name fnd) = sumFound assoc + (if fnd then 1 else 0) ∧
    sumMissing (updStats assoc name fnd) = sumMissing assoc + (if fnd then 0 else 1) := by
  induction assoc with
  | nil => cases hmem
  | cons a es ih =>
    rw [updStats]
    by_cases hk : a.1 = name
    · rw [if_pos hk]
      refine ⟨?_, ?_, ?_⟩
      · simp [sumTotal]
        omega
      · simp [sumFound]
        cases fnd <;> simp <;> omega
      · simp [sumMissing]
        cases fnd <;> simp <;> omega
    · rw [if_neg hk]
      have hmem' : name ∈ es.map Prod.fst := by
        rcases List.mem_cons.mp hmem with h1 | h1
        · exact absurd h1.symm hk
        · exact h1
      obtain ⟨u1, u2, u3⟩ := ih hmem'
      refine ⟨?_, ?_, ?_⟩ <;>
        simp [sumTotal, sumFound, sumMissing] at u1 u2 u3 ⊢ <;> omega

theorem foldl_updStats_keys (results : List IMEIMatchResult) :
    ∀ init : List (Str × IMEIColumnStats),
      ((results.foldl (fun a r => updStats a r.column r.found) init).map Prod.fst) =
        init.map Prod.fst := by
  induction results with
  | nil => intro init; rfl
  | cons r rs ih =>
    intro init
    rw [List.foldl_cons, ih, updStats_keys]

theorem foldl_updStats_statOk (results : List IMEIMatchResult) :
    ∀ init : List (Str × IMEIColumnStats),
      (∀ e ∈ init, e.2.found + e.2.missing = e.2.total) →
      ∀ e ∈ results.foldl (fun a r => updStats a r.column r.found) init,
        e.2.found + e.2.missing = e.2.total := by
  induction results with
  | nil => intro init h; exact h
  | cons r rs ih =>
    intro init h
    rw [List.foldl_cons]
    exact ih _ (updStats_statOk _ _ _ h)

theorem foldl_updStats_sums (results : List IMEIMatchResult) :
    ∀ init : List (Str × IMEIColumnStats),
      (∀ r ∈ results, r.column ∈ init.map Prod.fst) →
      sumTotal (results.foldl (fun a r => updStats a r.column r.found) init) =
          sumTotal init + results.length ∧
      sumFound (results.foldl (fun a r => updStats a r.column r.found) init) =
          sumFound init + (results.filter (fun r => r.found)).length ∧
      sumMissing (results.foldl (fun a r => updStats a r.column r.found) init) =
          sumMissing init + (results.filter (fun r => !r.found)).length := by
  induction results with
  | nil => intro init _; exact ⟨rfl, rfl, rfl⟩
  | cons r rs ih =>
    intro init h
    rw [List.foldl_cons]
    have hmem : r.column ∈ init.map Prod.fst := h r (List.mem_cons_self _ _)
    obtain ⟨u1, u2, u3⟩ := updStats_sums init r.column r.found hmem
    obtain ⟨h1, h2, h3⟩ := ih (updStats init r.column r.found)
      (fun x hx => (updStats_keys init r.column r.found) ▸ h x (List.mem_cons_of_mem _ hx))
    refine ⟨?_, ?_, ?_⟩
    · rw [h1, u1]
      simp [Nat.add_assoc, Nat.add_comm 1 rs.length]
    · rw [h2, u2, List.filter_cons]
      cases hf : r.found <;> simp <;> omega
    · rw [h3, u3, List.filter_cons]
      cases hf : r.found <;> simp <;> omega

theorem initStats_keys (names : List Str) :
    (initStats names).map Prod.fst = uniqueStrings names := by
  simp only [initStats, List.map_map]
  exact List.map_id _ ▸ List.map_congr_left (fun a _ => rfl)

theorem initStats_zero (names : List Str) :
    sumTotal (initStats names) = 0 ∧ sumFound (initStats names) = 0 ∧
      sumMissing (initStats names) = 0 := by
  refine ⟨?_, ?_, ?_⟩
  · simp only [sumTotal, initStats, List.map_map]
    exact List.sum_eq_zero (by simp)
  · simp only [sumFound, initStats, List.map_map]
    exact List.sum_eq_zero (by simp)
  · simp only [sumMissing, initStats, List.map_map]
    exact List.sum_eq_zero (by simp)

theorem initStats_statOk (names : List Str) :
    ∀ e ∈ initStats names, e.2.found + e.2.missing = e.2.total := by
  intro e he
  obtain ⟨n, _, hn⟩ := List.mem_map.mp he
  rw [← hn]
  rfl

/-- Reading the stats map once per key, in key order, is the stats map's
value column — provided the keys are duplicate-free. -/
theorem lookup_map_of_keys (stats : List (Str × IMEIColumnStats)) :
    ∀ names : List Str, stats.map Prod.fst = names → names.Nodup →
      names.map (fun n =>
        ((stats.find? (fun e => decide (e.1 = n))).map Prod.snd).getD ⟨n, 0, 0, 0⟩) =
      stats.map Prod.snd := by
  induction stats with
  | nil =>
    intro names hk _
    rw [← hk]
    rfl
  | cons e es ih =>
    intro names hk hnd
    subst hk
    simp only [List.map_cons] at hnd ⊢
    obtain ⟨hni, hnd'⟩ := List.nodup_cons.mp hnd
    congr 1
    · rw [List.find?_cons_of_pos _ (by simp)]
      rfl
    · rw [List.map_map, ← ih (es.map Prod.fst) rfl hnd', List.map_map]
      refine List.map_congr_left (fun a ha => ?_)
      simp only [Function.comp]
      rw [List.find?_cons_of_neg _ ?_]
      simp only [decide_eq_true_eq]
      intro hea
      exact hni (hea ▸ List.mem_map.mpr ⟨a, ha, rfl⟩)

theorem mkReport_totals (colMap : List (Nat × Str)) (text : Str)
    (rest : List (Option (List Str))) :
    (mkReport colMap text rest).totalIMEIs =
        (allResults (find15 text) text colMap rest 1).length ∧
    (mkReport colMap text rest).totalFound =
        ((allResults (find15 text) text colMap rest 1).filter
          (fun r => r.found)).length ∧
    (mkReport colMap text rest).totalMissing =
        ((allResults (find15 text) text colMap rest 1).filter
          (fun r => !r.found)).length :=
  ⟨rfl, rfl, rfl⟩

/-- Every emitted result's column is a recognized column name. -/
theorem allResults_column_mem (cands : List Str) (text : Str)
    (colMap : List (Nat × Str)) (records : List (Option (List Str)))
    (line : Nat) (r : IMEIMatchResult)
    (h : r ∈ allResults cands text colMap records line) :
    r.column ∈ colMap.map Prod.snd := by
  obtain ⟨p, hp, l, cell, hcell⟩ := mem_allResults cands text colMap r records line h
  rw [(processCell_inv _ _ _ _ _ _ hcell).2.1]
  exact List.mem_map.mpr ⟨p, hp, rfl⟩

/-- The recognized column names of an analyzed batch (empty when the input
has no readable header). -/
def headerNames (records : List (Option (List Str))) : List Str :=
  match records with
  | some header :: _ => (imeiColMap header).map Prod.snd
  | _ => []

/-- The statistics invariants, stated over the report builder. -/
theorem mkReport_stats (colMap : List (Nat × Str)) (text : Str)
    (rest : List (Option (List Str))) :
    (∀ st ∈ (mkReport colMap text rest).columnStats,
        st.found + st.missing = st.total) ∧
    ((colMap.map Prod.snd).Nodup →
      ((mkReport colMap text rest).columnStats.map (fun st => st.total)).sum =
          (mkReport colMap text rest).totalIMEIs ∧
      ((mkReport colMap text rest).columnStats.map (fun st => st.found)).sum =
          (mkReport colMap text rest).totalFound ∧
      ((mkReport colMap text rest).columnStats.map (fun st => st.missing)).sum =
          (mkReport colMap text rest).totalMissing) := by
  set results := allResults (find15 text) text colMap rest 1 with hres
  set stats := foldStats (colMap.map Prod.snd) results with hstats
  have hcs : (mkReport colMap text rest).columnStats = colMap.map (fun p =>
      ((stats.find? (fun e => decide (e.1 = p.2))).map Prod.snd).getD
        ⟨p.2, 0, 0, 0⟩) := rfl
  have hkeys : stats.map Prod.fst = uniqueStrings (colMap.map Prod.snd) := by
    rw [hstats, foldStats, foldl_updStats_keys, initStats_keys]
  have hok : ∀ e ∈ stats, e.2.found + e.2.missing = e.2.total := by
    rw [hstats, foldStats]
    exact foldl_updStats_statOk _ _ (initStats_statOk _)
  constructor
  · intro st hst
    rw [hcs] at hst
    obtain ⟨p, hp, hpe⟩ := List.mem_map.mp hst
    cases hf : stats.find? (fun e => decide (e.1 = p.2)) with
    | none =>
      rw [hf] at hpe
      rw [← hpe]
      rfl
    | some e =>
      rw [hf] at hpe
      rw [← hpe]
      exact hok e (List.mem_of_find?_eq_some hf)
  · intro hnd
    have hmemcol : ∀ r ∈ results, r.column ∈
        (initStats (colMap.map Prod.snd)).map Prod.fst := by
      intro r hr
      rw [initStats_keys, mem_uniqueStrings]
      exact allResults_column_mem _ _ _ _ _ _ (hres ▸ hr)
    have hsums := foldl_updStats_sums results (initStats (colMap.map Prod.snd)) hmemcol
    obtain ⟨z1, z2, z3⟩ := initStats_zero (colMap.map Prod.snd)
    rw [z1, z2, z3] at hsums
    have hcs2 : (mkReport colMap text rest).columnStats = stats.map Prod.snd := by
      rw [hcs]
      have hlook := lookup_map_of_keys stats (colMap.map Prod.snd)
        (by rw [hkeys, uniqueStrings_eq_self _ hnd]) hnd
      calc colMap.map (fun p =>
              ((stats.find? (fun e => decide (e.1 = p.2))).map Prod.snd).getD
                ⟨p.2, 0, 0, 0⟩)
          = (colMap.map Prod.snd).map (fun n =>
              ((stats.find? (fun e => decide (e.1 = n))).map Prod.snd).getD
                ⟨n, 0, 0, 0⟩) := by
            rw [List.map_map]
            rfl
        _ = stats.map Prod.snd := hlook
    rw [hcs2]
    obtain ⟨s1, s2, s3⟩ := hsums
    rw [Nat.zero_add] at s1 s2 s3
    refine ⟨?_, ?_, ?_⟩
    · rw [List.map_map]
      exact s1
    · rw [List.map_map]
      exact s2
    · rw [List.map_map]
      exact s3

/-- C8 (amended): in every report a successful `Analyze` produces,
`found + missing = total` holds for every per-column stat; and — provided
the recognized column names after trimming are pairwise distinct — the
per-column totals sum to the overall identifier total and the per-column
found/missing counters sum to the overall found/missing counters.  (With a
duplicated recognized column name the final collection reads the shared
accumulated entry once per occurrence, and the sums overshoot; see the
counterexample.) -/
theorem stats_invariants (records : List (Option (List Str))) (text : Str)
    (report : IMEIVerificationReport) (h : Analyze records text = .ok report) :
    (∀ st ∈ report.columnStats, st.found + st.missing = st.total) ∧
    ((headerNames records).Nodup →
      (report.columnStats.map (fun st => st.total)).sum = report.totalIMEIs ∧
      (report.columnStats.map (fun st => st.found)).sum = report.totalFound ∧
      (report.columnStats.map (fun st => st.missing)).sum = report.totalMissing) := by
  obtain ⟨header, rest, hrec, hne, hrep⟩ := Analyze_ok_inv records text report h
  subst hrep
  subst hrec
  exact mkReport_stats (imeiColMap header) text rest

/-! ## Concrete runs of the IMEI engine -/

/-- A one-column, one-row batch whose value is found in the text only as a
prefix inside a longer digit-letter run (no clean 15-digit candidate). -/
def wRecords : List (Option (List Str)) :=
  [some ["Imei1".data], some ["12345678901234".data]]

def wText : Str := "ab12345678901234cd".data

def wRes : IMEIMatchResult :=
  ⟨2, "Imei1".data, "12345678901234".data, placeholderMatch, true⟩

def wReport : IMEIVerificationReport :=
  { totalIMEIs := 1
    totalFound := 1
    totalMissing := 0
    columnStats := [⟨"Imei1".data, 1, 1, 0⟩]
    results := [wRes] }

/-- Witness for C1 at the concrete run: the value is marked found because
it occurs as a literal substring, although no 15-digit candidate yields it. -/
theorem found_iff_contains_witness :
    wRes.found = containsStr wText wRes.imei14 :=
  found_iff_contains wRecords wText wReport wRes rfl (by decide)

/-- Witness for C7 at the concrete run: found with no matching candidate,
so the display value is the placeholder, not the empty string. -/
theorem matched_value_rules_witness :
    wRes.matchedIMEI =
      (match (find15 wText).find? (fun seq => wRes.imei14.isPrefixOf seq) with
       | some seq => seq
       | none => placeholderMatch) ∧ wRes.matchedIMEI ≠ [] :=
  (matched_value_rules wRecords wText wReport wRes rfl (by decide)).1 rfl

/-- Witness for C6's cell-level clauses at concrete cells: a 3-character
value is dropped entirely, an 18-character value is truncated to its first
14 characters. -/
theorem normalize_rules_witness :
    processCell [] [] 3 [] "123".data = none ∧
    (∃ r, processCell [] [] 3 [] "123456789012345678".data = some r ∧
        r.imei14 = (trimSpace "123456789012345678".data).take 14) :=
  ⟨(normalize_rules [] [] 3 [] "123".data [] wReport).1 (by decide),
   (normalize_rules [] [] 3 [] "123456789012345678".data [] wReport).2.1
     (by decide)⟩

/-- Witness for C8's amended statement at the concrete run (distinct column
names): the per-column totals sum to the overall count. -/
theorem stats_invariants_witness :
    (wReport.columnStats.map (fun st => st.total)).sum = wReport.totalIMEIs :=
  ((stats_invariants wRecords wText wReport rfl).2 (by decide)).1

/-- A batch whose header repeats the recognized column name `imei1`. -/
def dupRecords : List (Option (List Str)) :=
  [some ["imei1".data, "imei1".data],
   some ["12345678901234".data, "12345678901234".data]]

def dupReport : IMEIVerificationReport :=
  { totalIMEIs := 2
    totalFound := 0
    totalMissing := 2
    columnStats := [⟨"imei1".data, 2, 0, 2⟩, ⟨"imei1".data, 2, 0, 2⟩]
    results := [⟨2, "imei1".data, "12345678901234".data, [], false⟩,
                ⟨2, "imei1".data, "12345678901234".data, [], false⟩] }

/-- C8 counterexample: with the recognized column name `imei1` appearing
twice in the header, both cells accumulate into one shared `statsMap`
entry, which the final collection then emits once per `colMap` entry — the
per-column totals sum to 4 for a report of 2 processed identifiers, and the
overall found/missing counters likewise differ from the per-column sums. -/
theorem stats_sum_cex :
    Analyze dupRecords [] = .ok dupReport ∧
    (dupReport.columnStats.map (fun st => st.total)).sum ≠ dupReport.totalIMEIs :=
  ⟨rfl, by decide⟩

/-! ## Lemmas about the risk-profile store -/

/-- C10: an upsert whose identifier already has a profile row keeps the
table's row count (no second row for the identifier) and rewrites rows in
place: every row keeps its `id`, its identifier key and its `created_at`,
and a row whose identifier differs from the upserted one is left entirely
unchanged — only `risk_level`, `flagged_by`, `comment` and `updated_at` of
the conflicting row change. -/
theorem upsert_frame (table : List RiskRow) (p : RiskProfile) (newId now : Nat)
    (h : ∃ row ∈ table, row.iinBin = p.iinBin) :
    (upsert table p newId now).length = table.length ∧
    List.Forall₂ (fun old new =>
      new.id = old.id ∧ new.iinBin = old.iinBin ∧ new.createdAt = old.createdAt ∧
      (old.iinBin ≠ p.iinBin → new = old)) table (upsert table p newId now) := by
  have hany : table.any (fun row => decide (row.iinBin = p.iinBin)) = true := by
    obtain ⟨row, hmem, heq⟩ := h
    exact List.any_eq_true.mpr ⟨row, hmem, by simp [heq]⟩
  rw [upsert, if_pos hany]
  refine ⟨by simp, ?_⟩
  rw [List.forall₂_map_right_iff]
  rw [List.forall₂_same]
  intro row hrow
  by_cases hk : row.iinBin = p.iinBin
  · rw [if_pos hk]
    exact ⟨rfl, rfl, rfl, fun hne => absurd hk hne⟩
  · rw [if_neg hk]
    exact ⟨rfl, rfl, rfl, fun _ => rfl⟩

def wTable : List RiskRow :=
  [⟨7, "A".data, RiskLevel.green, "x".data, "old".data, 3, 4⟩]

def wProfile : RiskProfile := ⟨"A".data, RiskLevel.red, "y".data, "why".data⟩

/-- Witness for C10 at a concrete one-row table whose identifier conflicts. -/
theorem upsert_frame_witness :
    (upsert wTable wProfile 99 50).length = wTable.length :=
  (upsert_frame wTable wProfile 99 50 (by decide)).1

theorem mem_of_getLast?_eq_some {α : Type} {l : List α} {a : α}
    (h : l.getLast? = some a) : a ∈ l := by
  obtain ⟨hne, heq⟩ := List.mem_getLast?_eq_getLast (Option.mem_def.mpr h)
  rw [heq]
  exact List.getLast_mem hne

/-- The updating pass of `upsert` leaves every row's identifier unchanged,
so row lookup commutes with it. -/
theorem lookupRow_upsert_same (table : List RiskRow) (w : RiskProfile)
    (i j : Nat) :
    ∃ row, lookupRow (upsert table w i j) w.iinBin = some row ∧
      row.riskLevel = w.riskLevel := by
  rw [upsert]
  by_cases hany : table.any (fun row => decide (row.iinBin = w.iinBin)) = true
  · rw [if_pos hany, lookupRow, List.find?_map]
    have hpred : ((fun (row : RiskRow) => decide (row.iinBin = w.iinBin)) ∘
        (fun (row : RiskRow) =>
        if row.iinBin = w.iinBin then
          { row with riskLevel := w.riskLevel, flaggedBy := w.flaggedBy,
                     comment := w.reason, updatedAt := j }
        else row)) = (fun row => decide (row.iinBin = w.iinBin)) := by
      funext row
      by_cases hk : row.iinBin = w.iinBin <;> simp [Function.comp, hk]
    rw [hpred]
    obtain ⟨row, hmem, hrow⟩ := List.any_eq_true.mp hany
    cases hf : List.find? (fun row => decide (row.iinBin = w.iinBin)) table with
    | none =>
      rw [List.find?_eq_none] at hf
      exact absurd hrow (hf row hmem)
    | some r0 =>
      have hr0 : r0.iinBin = w.iinBin := by simpa using List.find?_some hf
      refine ⟨_, rfl, ?_⟩
      simp [hr0]
  · rw [if_neg hany, lookupRow, List.find?_append]
    have hnone : List.find? (fun row => decide (row.iinBin = w.iinBin)) table = none := by
      rw [List.find?_eq_none]
      intro a ha hpa
      exact hany (List.any_eq_true.mpr ⟨a, ha, hpa⟩)
    rw [hnone, List.find?_cons_of_pos _ (by simp)]
    exact ⟨_, rfl, rfl⟩

/-- An upsert for a different identifier does not change what lookup of
this identifier returns. -/
theorem lookupRow_upsert_other (table : List RiskRow) (w : RiskProfile)
    (i j : Nat) (k : Str) (hk : w.iinBin ≠ k) :
    lookupRow (upsert table w i j) k = lookupRow table k := by
  rw [upsert]
  by_cases hany : table.any (fun row => decide (row.iinBin = w.iinBin)) = true
  · rw [if_pos hany, lookupRow, List.find?_map]
    have hpred : ((fun (row : RiskRow) => decide (row.iinBin = k)) ∘
        (fun (row : RiskRow) =>
        if row.iinBin = w.iinBin then
          { row with riskLevel := w.riskLevel, flaggedBy := w.flaggedBy,
                     comment := w.reason, updatedAt := j }
        else row)) = (fun row => decide (row.iinBin = k)) := by
      funext row
      by_cases hx : row.iinBin = w.iinBin <;> simp [Function.comp, hx]
    rw [hpred, lookupRow]
    cases hf : List.find? (fun row => decide (row.iinBin = k)) table with
    | none => rfl
    | some r0 =>
      have hr0 : r0.iinBin = k := by simpa using List.find?_some hf
      have hne : ¬ r0.iinBin = w.iinBin := by
        intro hh
        exact hk (by rw [← hh]; exact hr0)
      simp [hne]
  · rw [if_neg hany, lookupRow, List.find?_append, lookupRow,
      List.find?_cons_of_neg _ (by simp; exact fun hh => hk hh)]
    cases List.find? (fun row => decide (row.iinBin = k)) table <;> rfl

/-- A run of upserts none of which touches the identifier leaves its lookup
unchanged. -/
theorem applyWrites_untouched (k : Str) :
    ∀ (ws : List RiskProfile) (table : List RiskRow) (n : Nat),
      (∀ q ∈ ws, q.iinBin ≠ k) →
      lookupRow (applyWrites table ws n) k = lookupRow table k := by
  intro ws
  induction ws with
  | nil => intro table n _; rfl
  | cons w rest ih =>
    intro table n h
    rw [applyWrites, ih _ _ (fun q hq => h q (List.mem_cons_of_mem _ hq)),
      lookupRow_upsert_other _ _ _ _ _ (h w (List.mem_cons_self _ _))]

/-- After a run of upserts, the stored risk level of an identifier is the
level of the last write issued for it. -/
theorem applyWrites_lookup (k : Str) :
    ∀ (ws : List RiskProfile) (table : List RiskRow) (n : Nat) (w : RiskProfile),
      (ws.filter (fun q => decide (q.iinBin = k))).getLast? = some w →
      ∃ row, lookupRow (applyWrites table ws n) k = some row ∧
        row.riskLevel = w.riskLevel := by
  intro ws
  induction ws with
  | nil =>
    intro table n w h
    cases h
  | cons w0 rest ih =>
    intro table n w h
    rw [applyWrites]
    by_cases h0 : w0.iinBin = k
    · rw [List.filter_cons_of_pos (by simp [h0])] at h
      cases hrest : rest.filter (fun q => decide (q.iinBin = k)) with
      | nil =>
        rw [hrest] at h
        cases h
        have hnone : ∀ q ∈ rest, q.iinBin ≠ k := by
          intro q hq hqk
          have hqmem : q ∈ rest.filter (fun q => decide (q.iinBin = k)) :=
            List.mem_filter.mpr ⟨hq, by simp [hqk]⟩
          rw [hrest] at hqmem
          cases hqmem
        rw [applyWrites_untouched k rest _ _ hnone]
        have := lookupRow_upsert_same table w0 n n
        rwa [h0] at this
      | cons b t =>
        rw [hrest, List.getLast?_cons_cons] at h
        exact ih _ _ w (by rw [hrest]; exact h)
    · rw [List.filter_cons_of_neg (by simp [h0])] at h
      exact ih _ _ w h

/-! ## Lemmas about the risk batch and its auto-flag writes -/

/-- Inversion of a successful `AnalyzeCSV`: the flags are the three
analyses of the parsed rows and the upsert sequence is the frequency pass
followed by the document-reuse pass. -/
theorem AnalyzeCSVW_ok_inv (records : List (Option (List Str))) (fb : Str)
    (res : RiskAnalysisResult) (writes : List RiskProfile)
    (h : AnalyzeCSVW records fb = .ok (res, writes)) :
    ∃ header rest, records = some header :: rest ∧
      res.documentReuse = docFlags (riskRows header rest) ∧
      res.highFrequencyIIN = freqFlags (riskRows header rest) ∧
      res.flipFlopStatus = flipFlags (riskRows header rest) ∧
      writes = freqWrites fb (freqFlags (riskRows header rest)) ++
        docWrites fb (docFlags (riskRows header rest)) := by
  cases records with
  | nil => cases h
  | cons orec rest =>
    cases orec with
    | none => cases h
    | some header =>
      simp only [AnalyzeCSVW] at h
      split at h
      · cases h
      · split at h
        · cases h
        · cases h
          exact ⟨header, rest, rfl, rfl, rfl, rfl, rfl⟩

/-- Inversion of a frequency flag: its count is the identifier's raw count,
at least 5, and its level is red exactly from 10 up. -/
theorem freqFlags_inv (rows : List RiskCSVRow) (f : FrequencyFlag)
    (hf : f ∈ freqFlags rows) :
    f.count = countOcc f.iinBin rows ∧ 5 ≤ f.count ∧
      f.riskLevel = (if 10 ≤ f.count then "red".data else "yellow".data) := by
  obtain ⟨iin, hmem, heq⟩ := List.mem_filterMap.mp hf
  simp only [] at heq
  split at heq
  · cases heq
    exact ⟨rfl, by assumption, rfl⟩
  · cases heq

/-- Every document-reuse write carries tier yellow. -/
theorem docWrites_yellow (fb : Str) (flags : List DocumentReuseFlag)
    (w : RiskProfile) (hw : w ∈ docWrites fb flags) :
    w.riskLevel = RiskLevel.yellow := by
  obtain ⟨l, hl, hwl⟩ := List.mem_flatten.mp hw
  obtain ⟨dr, _, hdr⟩ := List.mem_map.mp hl
  rw [← hdr] at hwl
  obtain ⟨iin, _, hiw⟩ := List.mem_map.mp hwl
  rw [← hiw]

/-- Each identifier of each document-reuse flag gets a yellow write. -/
theorem docWrites_mem (fb : Str) (flags : List DocumentReuseFlag)
    (dr : DocumentReuseFlag) (hdr : dr ∈ flags) (id : Str) (hid : id ∈ dr.iins) :
    ∃ w ∈ docWrites fb flags, w.iinBin = id := by
  refine ⟨_, List.mem_flatten.mpr ⟨_, List.mem_map.mpr ⟨dr, hdr, rfl⟩,
    List.mem_map.mpr ⟨id, hid, rfl⟩⟩, rfl⟩

/-- C2: an identifier that both meets the red frequency threshold and
appears in a document-reuse group receives a red upsert in the frequency
pass, but the later document-reuse upsert overwrites it, so after the batch
the stored profile for the identifier carries tier yellow — a last-write-
wins overwrite, not a max-of-tiers merge. -/
theorem docreuse_overwrites_red (records : List (Option (List Str))) (fb : Str)
    (res : RiskAnalysisResult) (writes : List RiskProfile) (id : Str)
    (table : List RiskRow) (n : Nat)
    (h : AnalyzeCSVW records fb = .ok (res, writes))
    (hfreq : ∃ f ∈ res.highFrequencyIIN, f.iinBin = id ∧ 10 ≤ f.count)
    (hdoc : ∃ dr ∈ res.documentReuse, id ∈ dr.iins) :
    (∃ w ∈ writes, w.iinBin = id ∧ w.riskLevel = RiskLevel.red) ∧
    (∃ row, lookupRow (applyWrites table writes n) id = some row ∧
        row.riskLevel = RiskLevel.yellow) := by
  obtain ⟨header, rest, hrec, hdocs, hfreqs, hflips, hwrites⟩ :=
    AnalyzeCSVW_ok_inv records fb res writes h
  obtain ⟨f, hfmem, hfid, hfcount⟩ := hfreq
  rw [hfreqs] at hfmem
  obtain ⟨dr, hdrmem, hdrid⟩ := hdoc
  rw [hdocs] at hdrmem
  have hfinv := freqFlags_inv _ f hfmem
  constructor
  · -- the frequency pass issues a red write for the identifier
    refine ⟨⟨f.iinBin, RiskLevel.red, fb,
      "Auto-flagged: ".data ++ (Nat.repr f.count).data
        ++ " applications detected".data⟩, ?_, hfid, rfl⟩
    rw [hwrites]
    refine List.mem_append_left _ ?_
    have hred : f.riskLevel = "red".data := by
      rw [hfinv.2.2, if_pos hfcount]
    have : (⟨f.iinBin, RiskLevel.red, fb,
        "Auto-flagged: ".data ++ (Nat.repr f.count).data
          ++ " applications detected".data⟩ : RiskProfile) =
        ⟨f.iinBin, if f.riskLevel = "red".data then RiskLevel.red
            else RiskLevel.yellow, fb,
          "Auto-flagged: ".data ++ (Nat.repr f.count).data
            ++ " applications detected".data⟩ := by
      rw [if_pos hred]
    rw [this]
    exact List.mem_map.mpr ⟨f, hfmem, rfl⟩
  · -- the document-reuse pass writes yellow afterwards, and wins
    obtain ⟨wY, hwY, hwYid⟩ :=
      docWrites_mem fb (docFlags (riskRows header rest)) dr hdrmem id hdrid
    have hfilter : (writes.filter (fun q => decide (q.iinBin = id))) =
        (freqWrites fb (freqFlags (riskRows header rest))).filter
          (fun q => decide (q.iinBin = id)) ++
        (docWrites fb (docFlags (riskRows header rest))).filter
          (fun q => decide (q.iinBin = id)) := by
      rw [hwrites, List.filter_append]
    have hdnil : (docWrites fb (docFlags (riskRows header rest))).filter
        (fun q => decide (q.iinBin = id)) ≠ [] := by
      intro hnil
      have : wY ∈ (docWrites fb (docFlags (riskRows header rest))).filter
          (fun q => decide (q.iinBin = id)) :=
        List.mem_filter.mpr ⟨hwY, by simp [hwYid]⟩
      rw [hnil] at this
      cases this
    obtain ⟨wlast, hwlast⟩ := Option.ne_none_iff_exists'.mp
      (by rwa [ne_eq, List.getLast?_eq_none_iff] :
        ((docWrites fb (docFlags (riskRows header rest))).filter
          (fun q => decide (q.iinBin = id))).getLast? ≠ none)
    have hylast : wlast.riskLevel = RiskLevel.yellow :=
      docWrites_yellow fb _ wlast
        (List.mem_filter.mp (mem_of_getLast?_eq_some hwlast)).1
    have hgetlast : (writes.filter (fun q => decide (q.iinBin = id))).getLast? =
        some wlast := by
      rw [hfilter, List.getLast?_append, hwlast]
      rfl
    obtain ⟨row, hrow, hrl⟩ := applyWrites_lookup id writes table n wlast hgetlast
    exact ⟨row, hrow, hrl.trans hylast⟩

/-! ## Lemmas about the batch-fatal error conditions -/

theorem resolveLoop_error_iff (header : List Str) :
    ∀ (reqs : List Str) (e : RiskError),
      resolveLoop header reqs = .error e ↔
      ∃ req, reqs.find? (fun q => (resolveCol header (altNames q)).isNone) = some req ∧
        e = .missingColumn req (altNames req) := by
  intro reqs
  induction reqs with
  | nil =>
    intro e
    constructor
    · intro h
      cases h
    · rintro ⟨req, hreq, _⟩
      cases hreq
  | cons req rest ih =>
    intro e
    cases hcol : resolveCol header (altNames req) with
    | some idx =>
      rw [resolveLoop, hcol]
      have hfind : (req :: rest).find?
          (fun q => (resolveCol header (altNames q)).isNone) =
          rest.find? (fun q => (resolveCol header (altNames q)).isNone) :=
        List.find?_cons_of_neg _ (by simp [hcol])
      rw [hfind, ← ih e]
      cases hrest : resolveLoop header rest with
      | ok l => simp
      | error e0 => simp
    | none =>
      rw [resolveLoop, hcol]
      have hfind : (req :: rest).find?
          (fun q => (resolveCol header (altNames q)).isNone) = some req :=
        List.find?_cons_of_pos _ (by simp [hcol])
      rw [hfind]
      constructor
      · intro h
        injection h with h
        exact ⟨req, rfl, h.symm⟩
      · rintro ⟨req', hreq', he⟩
        injection hreq' with hreq'
        rw [he, ← hreq']

theorem resolveLoop_ok_iff (header : List Str) :
    ∀ reqs : List Str,
      (∃ l, resolveLoop header reqs = .ok l) ↔
      ∀ req ∈ reqs, (resolveCol header (altNames req)).isSome := by
  intro reqs
  induction reqs with
  | nil => exact ⟨fun _ _ h => absurd h (List.not_mem_nil _), fun _ => ⟨[], rfl⟩⟩
  | cons req rest ih =>
    cases hcol : resolveCol header (altNames req) with
    | some idx =>
      rw [resolveLoop, hcol]
      constructor
      · rintro ⟨l, hl⟩
        intro q hq
        rcases List.mem_cons.mp hq with h1 | h1
        · rw [h1, hcol]
          rfl
        · cases hrest : resolveLoop header rest with
          | ok l0 => exact ih.mp ⟨l0, hrest⟩ q h1
          | error e0 =>
            rw [hrest] at hl
            cases hl
      · intro hall
        obtain ⟨l, hl⟩ := ih.mpr (fun q hq => hall q (List.mem_cons_of_mem _ hq))
        exact ⟨(req, idx) :: l, by rw [hl]⟩
    | none =>
      rw [resolveLoop, hcol]
      constructor
      · rintro ⟨l, hl⟩
        cases hl
      · intro hall
        have := hall req (List.mem_cons_self _ _)
        rw [hcol] at this
        cases this

/-- Records that failed to read contribute nothing: parsing ignores them. -/
theorem parseRows_filter (i d s : Nat) (a : Option Nat)
    (records : List (Option (List Str))) :
    parseRows i d s a (records.filter Option.isSome) =
      parseRows i d s a records := by
  induction records with
  | nil => rfl
  | cons orec rest ih =>
    cases orec with
    | none =>
      rw [show (none :: rest).filter Option.isSome = rest.filter Option.isSome
        from rfl, ih]
      rfl
    | some record =>
      rw [show (some record :: rest).filter Option.isSome =
        some record :: rest.filter Option.isSome from rfl]
      simp only [parseRows, List.filterMap_cons] at ih ⊢
      split
      · exact ih
      · rw [ih]

/-- C9: the batch entry points fail exactly on the batch-fatal conditions.
`AnalyzeCSV` errors precisely on an unreadable header, on a required
logical column no alias of which resolves (the error naming the column and
the aliases tried, for the first such column), or on zero valid data rows;
the IMEI `Analyze` errors precisely on an unreadable header or zero
recognized IMEI columns; and records that fail to read are skipped without
effect — deleting them does not change the risk batch's outcome at all. -/
theorem batch_errors (records : List (Option (List Str))) (fb : Str) (text : Str) :
    (∀ e, AnalyzeCSVW records fb = .error e ↔
      ((records.head? = none ∨ records.head? = some none) ∧ e = .headerRead) ∨
      (∃ header rest, records = some header :: rest ∧
        ((∃ req, requiredCols.find?
            (fun q => (resolveCol header (altNames q)).isNone) = some req ∧
            e = .missingColumn req (altNames req)) ∨
         ((∀ req ∈ requiredCols, (resolveCol header (altNames req)).isSome) ∧
          riskRows header rest = [] ∧ e = .noValidRows)))) ∧
    (∀ e, Analyze records text = .error e ↔
      ((records.head? = none ∨ records.head? = some none) ∧ e = .headerRead) ∨
      (∃ header rest, records = some header :: rest ∧
        imeiColMap header = [] ∧ e = .noIMEIColumns)) ∧
    (∀ header rest, AnalyzeCSVW (some header :: rest) fb =
        AnalyzeCSVW (some header :: rest.filter Option.isSome) fb) := by
  refine ⟨?_, ?_, ?_⟩
  · intro e
    cases records with
    | nil =>
      simp only [AnalyzeCSVW]
      constructor
      · intro h
        injection h with h
        exact Or.inl ⟨Or.inl rfl, h.symm⟩
      · rintro (⟨_, he⟩ | ⟨header, rest, hcons, _⟩)
        · rw [he]
        · cases hcons
    | cons orec rest =>
      cases orec with
      | none =>
        simp only [AnalyzeCSVW]
        constructor
        · intro h
          injection h with h
          exact Or.inl ⟨Or.inr rfl, h.symm⟩
        · rintro (⟨hh, he⟩ | ⟨header, rest', hcons, _⟩)
          · rw [he]
          · cases hcons
      | some header =>
        constructor
        · intro h
          simp only [AnalyzeCSVW] at h
          split at h
          next e0 hres =>
            injection h with h
            subst h
            obtain ⟨req, hreq, he⟩ :=
              (resolveLoop_error_iff header requiredCols e0).mp hres
            exact Or.inr ⟨header, rest, rfl, Or.inl ⟨req, hreq, he⟩⟩
          next resolved hres =>
            split at h
            next hempty =>
              injection h with h
              subst h
              exact Or.inr ⟨header, rest, rfl, Or.inr
                ⟨(resolveLoop_ok_iff header requiredCols).mp ⟨resolved, hres⟩,
                 List.isEmpty_iff.mp hempty, rfl⟩⟩
            next => cases h
        · rintro (⟨hh, _⟩ | ⟨header', rest', hcons, hcase⟩)
          · rcases hh with hh | hh
            · cases hh
            · injection hh with hh
              cases hh
          · injection hcons with h1 h2
            injection h1 with h1
            subst h1
            subst h2
            rcases hcase with ⟨req, hreq, he⟩ | ⟨hall, hrows, he⟩
            · have hres := (resolveLoop_error_iff header requiredCols
                (.missingColumn req (altNames req))).mpr ⟨req, hreq, rfl⟩
              simp only [AnalyzeCSVW, hres, he]
            · obtain ⟨l, hl⟩ := (resolveLoop_ok_iff header requiredCols).mpr hall
              simp only [AnalyzeCSVW, hl, hrows, he, List.isEmpty_nil, if_true]
  · intro e
    cases records with
    | nil =>
      simp only [Analyze]
      constructor
      · intro h
        injection h with h
        exact Or.inl ⟨Or.inl rfl, h.symm⟩
      · rintro (⟨_, he⟩ | ⟨header, rest, hcons, _⟩)
        · rw [he]
        · cases hcons
    | cons orec rest =>
      cases orec with
      | none =>
        simp only [Analyze]
        constructor
        · intro h
          injection h with h
          exact Or.inl ⟨Or.inr rfl, h.symm⟩
        · rintro (⟨hh, he⟩ | ⟨header, rest', hcons, _⟩)
          · rw [he]
          · cases hcons
      | some header =>
        constructor
        · intro h
          simp only [Analyze] at h
          split at h
          next hempty =>
            injection h with h
            exact Or.inr ⟨header, rest, rfl, List.isEmpty_iff.mp hempty, h.symm⟩
          next => cases h
        · rintro (⟨hh, _⟩ | ⟨header', rest', hcons, hmap, he⟩)
          · rcases hh with hh | hh
            · cases hh
            · injection hh with hh
              cases hh
          · injection hcons with h1 h2
            injection h1 with h1
            subst h1
            subst h2
            simp only [Analyze, hmap, he, List.isEmpty_nil, if_true]
  · intro header rest'
    have hrr : riskRows header (rest'.filter Option.isSome) =
        riskRows header rest' := by
      rw [riskRows, riskRows]
      cases hres : resolveLoop header requiredCols with
      | error e0 => rfl
      | ok resolved => exact parseRows_filter _ _ _ _ rest'
    simp only [AnalyzeCSVW, hrr]

/-! ## A concrete run of the risk batch -/

/-- A batch in which identifier `A` occurs 10 times (red frequency) and
shares document `D1` with identifier `B` (document reuse). -/
def c2records : List (Option (List Str)) :=
  [some ["iin".data, "doc".data, "status".data, "appid".data]]
    ++ List.replicate 10 (some ["A".data, "D1".data, "ok".data, "p1".data])
    ++ [some ["B".data, "D1".data, "bad".data, "p2".data]]

def c2freqReason : Str := "Auto-flagged: 10 applications detected".data

def c2docReason : Str :=
  "Auto-flagged: document D1 reused across 2 IINs".data

def c2res : RiskAnalysisResult :=
  { totalRows := 11
    uniqueIINs := 2
    documentReuse := [⟨"D1".data, ["A".data, "B".data], 2⟩]
    highFrequencyIIN := [⟨"A".data, 10, "red".data⟩]
    flipFlopStatus := []
    autoFlagged := 3 }

def c2writes : List RiskProfile :=
  [⟨"A".data, RiskLevel.red, "u".data, c2freqReason⟩,
   ⟨"A".data, RiskLevel.yellow, "u".data, c2docReason⟩,
   ⟨"B".data, RiskLevel.yellow, "u".data, c2docReason⟩]

/-- Witness for C2 at the concrete batch: identifier `A` was written red by
the frequency pass, yet ends the batch stored as yellow. -/
theorem docreuse_overwrites_red_witness :
    ∃ row, lookupRow (applyWrites [] c2writes 0) ("A".data) = some row ∧
      row.riskLevel = RiskLevel.yellow :=
  (docreuse_overwrites_red c2records ("u".data) c2res c2writes ("A".data) [] 0
    rfl (by decide) (by decide)).2

/-! ## Concrete detector runs -/

/-- A parsed row with the four fields `AnalyzeCSV` fills. -/
def mkRow (appID iin doc status : Str) : RiskCSVRow :=
  ⟨[], appID, iin, doc, [], [], status, [], []⟩

def c3rows : List RiskCSVRow :=
  List.replicate 5 (mkRow [] "A".data "D".data "ok".data)

/-- Witness for C3: five occurrences yield exactly one yellow flag. -/
theorem freq_thresholds_witness :
    (freqFlags c3rows).filter (fun f => decide (f.iinBin = "A".data)) =
      [⟨"A".data, countOcc "A".data c3rows, "yellow".data⟩] :=
  (freq_thresholds c3rows "A".data).2.1 (by decide) (by decide)

def c4rows : List RiskCSVRow :=
  [mkRow [] "A".data "D1".data "ok".data, mkRow [] "B".data "D1".data "ok".data]

/-- Witness for C4: a document shared by two distinct identifiers is
flagged once, with the distinct-identifier count. -/
theorem docreuse_iff_witness :
    (docFlags c4rows).filter (fun fl => decide (fl.docNumber = "D1".data)) =
      [⟨"D1".data, docIINs "D1".data c4rows, (docIINs "D1".data c4rows).length⟩] :=
  (docreuse_iff c4rows "D1".data).1 (by decide) (by decide)

def c5rows : List RiskCSVRow :=
  [mkRow "p1".data "A".data "D".data "Approved".data,
   mkRow "p2".data "A".data "D".data "Rejected".data]

/-- Witness for C5: two distinct statuses yield exactly one flip-flop flag
listing both, with the application ids in encounter order. -/
theorem flipflop_iff_witness :
    (flipFlags c5rows).filter (fun fl => decide (fl.iinBin = "A".data)) =
      [⟨"A".data, uniqueStrings (statusesOf "A".data c5rows),
        appIDsOf "A".data c5rows⟩] :=
  (flipflop_iff c5rows "A".data).1 (by decide)

/-- Witness for C9: a header missing every `status` alias is batch-fatal,
the error naming the aliases tried. -/
theorem batch_errors_witness :
    AnalyzeCSVW [some ["iin".data, "doc".data]] "u".data =
      .error (.missingColumn "status".data ["status".data]) :=
  ((batch_errors [some ["iin".data, "doc".data]] "u".data []).1 _).mpr
    (Or.inr ⟨_, _, rfl, Or.inl ⟨"status".data, by decide, rfl⟩⟩)

end ATSVerify
